import Mathlib

/-!
Verification development for the lottery statistics engine
(`calculate_stats.py`).

The Python module is shallowly embedded: Python ints are `ℤ`/`ℕ`,
Python float arithmetic is modelled exactly (`ℚ` for values the program
derives by field operations from integers, `ℝ` as soon as `math.sqrt`
enters), ordered dicts with a fixed key set are association lists
(`Table`), and Python's stable `sorted`/`list.sort` is stable insertion
sort.  Fallible JSON-ish input values are modelled by the inductive
`PyVal`, and code that can raise a Python exception returns `Except`.
-/

/-- Fallback binomial coefficient of `calculate_stats.py` lines 9-23
(the `except ImportError` branch): multiplicative formula with floor
division, after reduction by symmetry.  Arguments are Python ints. -/
def comb (n k : ℤ) : ℤ :=
  if k < 0 ∨ n < k then 0
  else if k = 0 ∨ k = n then 1
  else
    -- k = min(k, n - k); result = 1; for i in range(k): result = result * (n - i) // (i + 1)
    -- in this branch 0 < k < n, so all loop values are non-negative and // is ℕ-division
    (((List.range (min k (n - k)).toNat).foldl
        (fun result i => result * (n.toNat - i) / (i + 1)) 1 : ℕ) : ℤ)

/-- Python dict with a fixed, insertion-ordered key set (e.g.
`{str(i): 0 for i in range(1, max_regular + 1)}`): an association list
from number to count, in key-insertion order. -/
abbrev Table := List (ℤ × ℕ)

/-- Dict update `d[k] = f(d[k])` on the first (unique) occurrence of key `k`. -/
def updateKey (k : ℤ) (f : ℕ → ℕ) : Table → Table
  | [] => []
  | (a, b) :: t => if a = k then (a, f b) :: t else (a, b) :: updateKey k f t

/-- `frequency[num_str] += 1`. -/
def bump (t : Table) (k : ℤ) : Table := updateKey k (· + 1) t

/-- Keys of a table, in order. -/
def keysOf (t : Table) : List ℤ := t.map (·.1)

/-- Sum of the counts of a table (`sum(d.values())`). -/
def sumVals (t : Table) : ℕ := (t.map (·.2)).sum

/-- The dict comprehension `{str(i): 0 for i in range(1, maxN + 1)}`. -/
def initTable (maxN : ℕ) : Table := (List.range maxN).map fun i : ℕ => ((i : ℤ) + 1, 0)

/-- Shallow model of the JSON-ish Python values a draw record may hold. -/
inductive PyVal : Type
  | vint (n : ℤ)
  | vlist (xs : List PyVal)
  | vnone
  | vother

/-- A raw element of the input draw list: either not a dict at all, or a
dict whose `numbers` field is as returned by `draw.get('numbers', [])`
(so a missing key is `vlist []`) and whose `specialBall` field is as
returned by `draw.get('specialBall')` (missing key is `vnone`). -/
inductive RawDraw : Type
  | notDict
  | record (numbers : PyVal) (specialBall : PyVal)

/-- Extract the ints of a list of Python values; `none` when some element
is not an int (then the loop of lines 679-682 rejects the draw). -/
def toInts : List PyVal → Option (List ℤ)
  | [] => some []
  | .vint n :: rest => (toInts rest).map (n :: ·)
  | _ :: _ => none

/-- Draw Validator (spec §4.1): the structural checks of
`calculate_stats_for_type` lines 667-685, as a single predicate. -/
def validDraw (max_regular max_special : ℕ) : RawDraw → Bool
  | .notDict => false
  | .record (.vlist ns) (.vint sb) =>
      decide (ns.length = 5) &&
        (match toInts ns with
          | some nums =>
              nums.all (fun n => decide (1 ≤ n) && decide (n ≤ (max_regular : ℤ))) &&
                (decide (1 ≤ sb) && decide (sb ≤ (max_special : ℤ)))
          | none => false)
  | .record _ _ => false

/-- The mutable counters of `calculate_stats_for_type` lines 660-663: the
valid-draw count, the overall and special frequency dicts, and the five
per-position dicts `position0 .. position4`. -/
structure AggState : Type where
  validDraws : ℕ
  frequency : Table
  specialFrequency : Table
  position0 : Table
  position1 : Table
  position2 : Table
  position3 : Table
  position4 : Table
deriving DecidableEq

/-- The dict `position_frequency` read back by position index. -/
def AggState.posTable (s : AggState) : Fin 5 → Table
  | ⟨0, _⟩ => s.position0
  | ⟨1, _⟩ => s.position1
  | ⟨2, _⟩ => s.position2
  | ⟨3, _⟩ => s.position3
  | ⟨4, _⟩ => s.position4

/-- Counter initialisation of lines 660-663. -/
def initAggState (max_regular max_special : ℕ) : AggState :=
  { validDraws := 0
    frequency := initTable max_regular
    specialFrequency := initTable max_special
    position0 := initTable max_regular
    position1 := initTable max_regular
    position2 := initTable max_regular
    position3 := initTable max_regular
    position4 := initTable max_regular }

/-- Body of the `for draw in draws` loop, lines 666-698.  A valid draw
increments each counter; any failed check leaves the state untouched.
The position tables are filled from `enumerate(numbers)`, i.e. by the
input order of the record's `numbers` array (the code performs no sort
here); since `len(numbers) == 5` was checked, the enumerate loop is the
five fixed updates below. -/
def processDraw (max_regular max_special : ℕ) (s : AggState) (draw : RawDraw) : AggState :=
  match draw with
  | .notDict => s
  | .record numbers specialBall =>
    match numbers, specialBall with
    | .vlist ns, .vint sb =>
      if ns.length = 5 then
        match toInts ns with
        | some nums =>
          let valid_regular_numbers :=
            nums.all fun n => decide (1 ≤ n) && decide (n ≤ (max_regular : ℤ))
          let valid_special_ball := decide (1 ≤ sb) && decide (sb ≤ (max_special : ℤ))
          if valid_regular_numbers && valid_special_ball then
            { validDraws := s.validDraws + 1
              frequency := nums.foldl bump s.frequency
              specialFrequency := bump s.specialFrequency sb
              position0 := bump s.position0 (nums.getD 0 0)
              position1 := bump s.position1 (nums.getD 1 0)
              position2 := bump s.position2 (nums.getD 2 0)
              position3 := bump s.position3 (nums.getD 3 0)
              position4 := bump s.position4 (nums.getD 4 0) }
          else s
        | none => s
      else s
    | _, _ => s

/-- Frequency Aggregator: the whole counting loop over the input list. -/
def aggregateDraws (max_regular max_special : ℕ) (draws : List RawDraw) : AggState :=
  draws.foldl (processDraw max_regular max_special) (initAggState max_regular max_special)

/-- Ordering used by `sorted(d.items(), key=lambda x: int(x[1]), reverse=True)`:
entry `a` may precede entry `b` iff `a`'s count is at least `b`'s. -/
def freqGE (a b : ℤ × ℕ) : Prop := b.2 ≤ a.2

instance : DecidableRel freqGE := fun a b => inferInstanceAs (Decidable (b.2 ≤ a.2))

instance : IsTotal (ℤ × ℕ) freqGE := ⟨fun a b => le_total b.2 a.2⟩

instance : IsTrans (ℤ × ℕ) freqGE := ⟨fun _ _ _ h1 h2 => le_trans h2 h1⟩

/-- Python's `sorted(..., key=lambda x: int(x[1]), reverse=True)`:
a stable descending-by-count sort.  Python's sort is stable (equal keys
keep insertion order, also with `reverse=True`); stable insertion sort
has the same behaviour. -/
def sortDescByCount (t : Table) : List (ℤ × ℕ) := t.insertionSort freqGE

/-- Python's ascending `sorted(candidates)` / `list.sort()` on ints. -/
def sortAsc (l : List ℤ) : List ℤ := l.insertionSort (· ≤ ·)

/-- `optimized_by_general_frequency_repeat` (lines 181-203). -/
def optimized_by_general_frequency_repeat (frequency special_frequency : Table) : List ℤ :=
  let sorted_regular := sortDescByCount frequency
  let sorted_special := sortDescByCount special_frequency
  let optimized_regular := sortAsc ((sorted_regular.take 5).map (·.1))
  let best_special := match sorted_special.head? with | some kv => kv.1 | none => 1
  optimized_regular ++ [best_special]

/-- The index tuples `(i, j, k, l, m)` visited by the nested loops of
`optimized_by_general_frequency_no_repeat` (lines 227-231), in
lexicographic (descending-frequency-first) order. -/
def idxTuples (i20 i10 : ℕ) : List (ℕ × ℕ × ℕ × ℕ × ℕ) :=
  (List.range i20).flatMap fun i =>
    (List.range i10).flatMap fun j =>
      (List.range i10).flatMap fun k =>
        (List.range i10).flatMap fun l =>
          (List.range i10).map fun m => (i, j, k, l, m)

/-- Body of one attempt of the no-repeat general-frequency search
(lines 236-252): build the candidate 5-tuple from the sorted table,
skip it unless its 5 numbers are pairwise distinct (`len(set(...)) == 5`),
then try each of the top 10 special balls and return the first sorted
6-tuple absent from the existing-combination set. -/
def tryCandidate (sorted_regular sorted_special : List (ℤ × ℕ))
    (existing : List (List ℤ)) (t : ℕ × ℕ × ℕ × ℕ × ℕ) : Option (List ℤ) :=
  let candidates := [(sorted_regular.getD t.1 (0, 0)).1, (sorted_regular.getD t.2.1 (0, 0)).1,
    (sorted_regular.getD t.2.2.1 (0, 0)).1, (sorted_regular.getD t.2.2.2.1 (0, 0)).1,
    (sorted_regular.getD t.2.2.2.2 (0, 0)).1]
  if candidates.dedup.length = 5 then
    (sorted_special.take 10).findSome? fun special_item =>
      let candidates_sorted := sortAsc candidates
      let combo := candidates_sorted ++ [special_item.1]
      if combo ∈ existing then none else some (candidates_sorted ++ [special_item.1])
  else none

/-- `optimized_by_general_frequency_no_repeat` (lines 205-255).  The
`attempts` counter is incremented once per visited index tuple, before
the distinctness check, and once it reaches 1000 every later iteration
of the innermost loop breaks immediately, so exactly the first 1000
index tuples in lexicographic order are processed; on exhaustion the
repeat-allowed result is returned. -/
def optimized_by_general_frequency_no_repeat (frequency special_frequency : Table)
    (existing_combinations : List (List ℤ)) : List ℤ :=
  match ((idxTuples (min 20 (sortDescByCount frequency).length)
      (min 10 (sortDescByCount frequency).length)).take 1000).findSome?
      (tryCandidate (sortDescByCount frequency) (sortDescByCount special_frequency)
        existing_combinations) with
  | some result => result
  | none => optimized_by_general_frequency_repeat frequency special_frequency

/-- Most frequent number of one position table (lines 271-281): first
key of the stable descending sort, or `1` for an empty table.  (The
`pos_key in position_frequency` guard of line 273 cannot fail for the
aggregator's tables, which always carry all five keys.) -/
def topNumber (t : Table) : ℤ :=
  match (sortDescByCount t).head? with | some kv => kv.1 | none => 1

/-- `optimized_by_position_frequency_repeat` (lines 257-287): the most
frequent number at each position, in position order, then the most
frequent special ball. -/
def optimized_by_position_frequency_repeat (position_frequency : Fin 5 → Table)
    (special_frequency : Table) : List ℤ :=
  let optimized := [topNumber (position_frequency 0), topNumber (position_frequency 1),
    topNumber (position_frequency 2), topNumber (position_frequency 3),
    topNumber (position_frequency 4)]
  let sorted_special := sortDescByCount special_frequency
  let best_special := match sorted_special.head? with | some kv => kv.1 | none => 1
  optimized ++ [best_special]

/-- `optimized_by_position_frequency_no_repeat` (lines 289-346).  The
`attempts` counter is incremented once per `(numbers, special)` pair —
only distinct 5-tuples reach the special loop — so exactly the first
1000 such pairs are tried; the first combination absent from history is
returned in position order, else the repeat-allowed result. -/
def optimized_by_position_frequency_no_repeat (position_frequency : Fin 5 → Table)
    (special_frequency : Table) (existing_combinations : List (List ℤ)) : List ℤ :=
  let position_candidates : Fin 5 → List ℤ := fun pos =>
    let cands := ((sortDescByCount (position_frequency pos)).take 10).map (·.1)
    if cands = [] then [1] else cands
  let sorted_special := sortDescByCount special_frequency
  let special_candidates :=
    if sorted_special = [] then [1] else (sorted_special.take 10).map (·.1)
  let tuples :=
    ((position_candidates 0).take 5).flatMap fun p0 =>
      ((position_candidates 1).take 5).flatMap fun p1 =>
        ((position_candidates 2).take 5).flatMap fun p2 =>
          ((position_candidates 3).take 5).flatMap fun p3 =>
            ((position_candidates 4).take 5).map fun p4 => [p0, p1, p2, p3, p4]
  let pairs := (tuples.filter fun numbers => numbers.dedup.length = 5).flatMap
    fun numbers => (special_candidates.take 5).map fun sp => (numbers, sp)
  match (pairs.take 1000).findSome? (fun pr =>
      let combo := sortAsc pr.1 ++ [pr.2]
      if combo ∈ existing_combinations then none else some (pr.1 ++ [pr.2])) with
  | some result => result
  | none => optimized_by_position_frequency_repeat position_frequency special_frequency

/-- `True` iff `tuple(sorted(numbers))` followed by `existing.add(...)`
is guaranteed to raise a `TypeError` in Python for this 5-element list:
a `None` element is compared against some other element inside
`sorted()` (`NoneType` is unorderable, and with 5 elements every element
takes part in at least one comparison), and a `list` element either hits
an unorderable comparison in `sorted()` or survives it and then makes
the resulting tuple unhashable at `add`. -/
def comboRaises : List PyVal → Bool
  | [] => false
  | .vnone :: _ => true
  | .vlist _ :: _ => true
  | _ :: rest => comboRaises rest

/-- `get_existing_combinations` (lines 160-179): every structurally
draw-shaped record contributes the tuple of its 5 sorted numbers plus
its special ball.  The function performs no element type checks, so it
can raise `TypeError` out of `tuple(sorted(numbers))`/`existing.add`
(modelled as `Except.error`, short-circuiting at the first offending
record exactly as the Python loop does).  The Python `set` is modelled
as a duplicate-free list.  Records whose `numbers` hold a `vother`
element but no `vnone`/`vlist` are dropped without error: whether the
concrete Python value raises there depends on data the constructor
abstracts over (a float sorts fine among ints, a string does not), and
when it does not raise its tuple contains a non-int and can never equal
the all-int candidate tuples the optimizers test for membership. -/
def get_existing_combinations (draws : List RawDraw) : Except Unit (List (List ℤ)) :=
  draws.foldlM
    (fun existing draw =>
      match draw with
      | .record (.vlist ns) (.vint sb) =>
        if ns.length = 5 then
          if comboRaises ns then .error ()
          else
            match toInts ns with
            | some nums =>
              let combo := sortAsc nums ++ [sb]
              .ok (if combo ∈ existing then existing else existing ++ [combo])
            | none => .ok existing
        else .ok existing
      | _ => .ok existing)
    []

/-- Position Probability Model, `calculate_exact_position_probability`
(lines 434-486): exact probability that number `k` occupies sorted rank
`p` among 5 numbers drawn from `1..max_number`.  Binomial coefficients
are `math.comb` = `Nat.choose` (the fallback `comb` is proved
extensionally equal below); the float division is modelled exactly
in `ℚ`. -/
def calculate_exact_position_probability (number position max_number : ℤ) : ℚ :=
  let k := number
  let p := position
  if k < 1 ∨ max_number < k then 0
  else if p < 0 ∨ 4 < p then 0
  else
    let min_for_position := p + 1
    let max_for_position := max_number - (4 - p)
    if k < min_for_position ∨ max_for_position < k then 0
    else
      let before := if p ≤ k - 1 then (k - 1).toNat.choose p.toNat else 0
      let after :=
        if 4 - p ≤ max_number - k then (max_number - k).toNat.choose (4 - p).toNat else 0
      let total := max_number.toNat.choose 5
      if total = 0 then 0
      else ((before * after : ℕ) : ℚ) / (total : ℚ)

/-- One residual dict as emitted by the Residual Calculators.  The
per-position calculator adds a `verySignificant` key in its
positive-draw-count branch only; `none` models an absent key.  The
boolean flags are float comparisons, modelled as propositions. -/
structure ResidualEntry : Type where
  observed : ℕ
  expected : ℝ
  residual : ℝ
  significant : Prop
  verySignificant : Option Prop
  percent : ℝ

instance : Inhabited ResidualEntry := ⟨⟨0, 0, 0, False, none, 0⟩⟩

section ResidualCalculators

open Classical

/-- The expression `(observed / total_draws * 100) if total_draws > 0 else 0.0`,
repeated in every branch of `calculate_standardized_residuals`. -/
noncomputable def pct (observed total_draws : ℕ) : ℝ :=
  if 0 < total_draws then (observed : ℝ) / (total_draws : ℝ) * 100 else 0

/-- Residual Calculator for the overall and special views,
`calculate_standardized_residuals` (lines 348-432).  `actual_draws` is
always passed explicitly by the caller (lines 730-734), so the
`None`-default of the Python signature is dropped; the
`percent_multiplier` parameter is unused by the Python body and omitted.
The float equality/positivity tests on exact quotients of integers are
modelled in `ℚ`; `math.sqrt` forces `ℝ` (for arguments `< 0`,
where Python would raise, `Real.sqrt` returns 0 — unreachable from the
call sites, whose `max_number ≥ 25`). -/
noncomputable def calculate_standardized_residuals (frequency_dict : Table)
    (total_draws max_number actual_draws : ℕ) : List (ℤ × ResidualEntry) :=
  if total_draws = 0 then
    frequency_dict.map fun kv =>
      (kv.1, { observed := kv.2, expected := 0, residual := 0, significant := False,
               verySignificant := none, percent := pct kv.2 total_draws })
  else
    let expected : ℚ := (total_draws : ℚ) / (max_number : ℚ)
    if expected = 0 then
      frequency_dict.map fun kv =>
        (kv.1, { observed := kv.2, expected := (expected : ℝ), residual := 0,
                 significant := False, verySignificant := none, percent := pct kv.2 total_draws })
    else
      let numbers_per_draw : ℚ :=
        if 0 < actual_draws then (total_draws : ℚ) / (actual_draws : ℚ) else 0
      let probability : ℚ :=
        if 0 < max_number then numbers_per_draw / (max_number : ℚ) else 0
      let std_dev : ℝ :=
        if 0 < actual_draws ∧ 0 < probability then
          Real.sqrt ((actual_draws : ℝ) * (probability : ℝ) * (1 - (probability : ℝ)))
        else 0
      if std_dev = 0 then
        frequency_dict.map fun kv =>
          (kv.1, { observed := kv.2, expected := (expected : ℝ), residual := 0,
                   significant := False, verySignificant := none, percent := pct kv.2 total_draws })
      else
        frequency_dict.map fun kv =>
          let residual : ℝ := ((kv.2 : ℝ) - (expected : ℝ)) / std_dev
          (kv.1, { observed := kv.2, expected := (expected : ℝ), residual := residual,
                   significant := |residual| > 2.0, verySignificant := none,
                   percent := pct kv.2 total_draws })

/-- Residual Calculator for the per-position view,
`calculate_exact_position_specific_residuals` (lines 488-578).  The
input dict with string keys `"0" .. "4"` is a function on `Fin 5`,
`none` standing for an absent key (which yields an empty output dict).
In the zero-draw branch the emitted dicts carry no `verySignificant`
key; in the main branch they do, with the 99%-threshold `2.58` of
line 565. -/
noncomputable def calculate_exact_position_specific_residuals
    (frequency_at_position : Fin 5 → Option Table) (total_draws max_number : ℕ) :
    Fin 5 → List (ℤ × ResidualEntry) :=
  if total_draws = 0 then
    fun pos =>
      match frequency_at_position pos with
      | none => []
      | some pos_freq =>
        pos_freq.map fun kv =>
          (kv.1, { observed := kv.2, expected := 0, residual := 0, significant := False,
                   verySignificant := none, percent := 0 })
  else
    fun pos =>
      match frequency_at_position pos with
      | none => []
      | some pos_freq =>
        pos_freq.map fun kv =>
          let probability : ℚ :=
            calculate_exact_position_probability kv.1 ((pos : ℕ) : ℤ) (max_number : ℤ)
          let expected : ℝ := (probability : ℝ) * (total_draws : ℝ)
          let std_dev : ℝ :=
            if 0 < probability ∧ probability < 1 then
              Real.sqrt ((total_draws : ℝ) * (probability : ℝ) * (1 - (probability : ℝ)))
            else 0
          let residual : ℝ := if 0 < std_dev then ((kv.2 : ℝ) - expected) / std_dev else 0
          (kv.1, { observed := kv.2, expected := expected, residual := residual,
                   significant := |residual| > 1.96,
                   verySignificant := some (|residual| > 2.58),
                   percent := pct kv.2 total_draws })

/-- The statistics object assembled by `calculate_stats_for_type`
(lines 757-767).  `byPosition` is the dict with keys
`position0 .. position4`. -/
structure StatisticsRecord : Type where
  type : String
  totalDraws : ℕ
  optimizedByGeneralFrequencyRepeat : List ℤ
  optimizedByGeneralFrequencyNoRepeat : List ℤ
  optimizedByPositionFrequencyRepeat : List ℤ
  optimizedByPositionFrequencyNoRepeat : List ℤ
  regularNumbers : List (ℤ × ResidualEntry)
  specialBallNumbers : List (ℤ × ResidualEntry)
  byPosition : Fin 5 → List (ℤ × ResidualEntry)

/-- Core entry point `calculate_stats_for_type` (lines 644-769): the
unguarded `get_existing_combinations(draws)` call at line 658 (whose
`TypeError` propagates to the caller, modelled by the `Except`), then
aggregation, the four optimization strategies (placeholders
`[1,2,3,4,5,1]` when no draw is valid), and the three residual views.
The overall view is computed with `total_draws = valid_draws * 5` and
`actual_draws = valid_draws`, the special view with both equal to
`valid_draws`, and the per-position view from the position tables
(passed under keys `"0" .. "4"`) with `valid_draws` and `max_regular`. -/
noncomputable def calculate_stats_for_type (draws : List RawDraw) (lottery_type : String)
    (max_regular max_special : ℕ) : Except Unit StatisticsRecord :=
  match get_existing_combinations draws with
  | .error e => .error e
  | .ok existing_combinations =>
  let s := aggregateDraws max_regular max_special draws
  let valid_draws := s.validDraws
  let optimized :=
    if valid_draws = 0 then
      (([1, 2, 3, 4, 5, 1] : List ℤ), ([1, 2, 3, 4, 5, 1] : List ℤ),
       ([1, 2, 3, 4, 5, 1] : List ℤ), ([1, 2, 3, 4, 5, 1] : List ℤ))
    else
      (optimized_by_general_frequency_repeat s.frequency s.specialFrequency,
       optimized_by_general_frequency_no_repeat s.frequency s.specialFrequency
         existing_combinations,
       optimized_by_position_frequency_repeat s.posTable s.specialFrequency,
       optimized_by_position_frequency_no_repeat s.posTable s.specialFrequency
         existing_combinations)
  let regular_residuals :=
    calculate_standardized_residuals s.frequency (valid_draws * 5) max_regular valid_draws
  let special_residuals :=
    calculate_standardized_residuals s.specialFrequency valid_draws max_special valid_draws
  let position_residuals :=
    calculate_exact_position_specific_residuals (fun i => some (s.posTable i))
      valid_draws max_regular
  .ok
    { type := lottery_type
      totalDraws := valid_draws
      optimizedByGeneralFrequencyRepeat := optimized.1
      optimizedByGeneralFrequencyNoRepeat := optimized.2.1
      optimizedByPositionFrequencyRepeat := optimized.2.2.1
      optimizedByPositionFrequencyNoRepeat := optimized.2.2.2
      regularNumbers := regular_residuals
      specialBallNumbers := special_residuals
      byPosition := position_residuals }

end ResidualCalculators

/-- Invariant maintained by the aggregation loop: every table keeps the
full key range it was initialised with, and the table sums track the
valid-draw count. -/
def AggInv (max_regular max_special : ℕ) (s : AggState) : Prop :=
  keysOf s.frequency = keysOf (initTable max_regular) ∧
  keysOf s.specialFrequency = keysOf (initTable max_special) ∧
  (∀ i : Fin 5, keysOf (s.posTable i) = keysOf (initTable max_regular)) ∧
  sumVals s.frequency = s.validDraws * 5 ∧
  sumVals s.specialFrequency = s.validDraws ∧
  (∀ i : Fin 5, sumVals (s.posTable i) = s.validDraws)

/-- A draw record with the given `numbers` list and special ball, as the
scraper stores it. -/
def mkDraw (ns : List ℤ) (sb : ℤ) : RawDraw := .record (.vlist (ns.map .vint)) (.vint sb)

/-- Five structurally valid Powerball draws, each with its numbers
already ascending. -/
def c9draws : List RawDraw :=
  [mkDraw [5, 6, 8, 9, 10] 1, mkDraw [5, 7, 8, 9, 10] 1, mkDraw [5, 11, 12, 13, 14] 1,
   mkDraw [1, 2, 8, 9, 10] 1, mkDraw [1, 2, 11, 12, 13] 1]

/-- The record `{"numbers": [1, null, 2, 3, 4], "specialBall": 7}`: a
dict whose `numbers` is a 5-element list containing `None` and whose
`specialBall` is an int. -/
def c7badDraw : RawDraw :=
  .record (.vlist [.vint 1, .vnone, .vint 2, .vint 3, .vint 4]) (.vint 7)

/-- The single overall-view residual entry for one valid draw that
contained the number 1 once (`validDrawCount = 1`, `maxRegular = 70`). -/
noncomputable def c4entry : ℤ × ResidualEntry :=
  (calculate_standardized_residuals [((1 : ℤ), 1)] (1 * 5) 70 1).getD 0 (0, default)

/-- A per-position residual entry from a one-entry table with
`totalDraws = 1` for the witness below. -/
noncomputable def c5wEntry : ℤ × ResidualEntry :=
  (calculate_exact_position_specific_residuals (fun _ => some [((1 : ℤ), 0)]) 1 6 0).getD
    0 (0, default)

/-- The per-position residual entry for number 2 at rank 0 with
`maxRegular = 6`, 450000 draws and 75645 observations: its exact
probability is 1/6, so `residual = (75645 - 75000) / 250 = 2.58`. -/
noncomputable def c5entry : ℤ × ResidualEntry :=
  (calculate_exact_position_specific_residuals
      (fun i => if i = 0 then some [((2 : ℤ), 75645)] else none) 450000 6 0).getD
    0 (0, default)

/-! ### Helper lemmas on binomial coefficients -/

/-- The multiplicative loop of the fallback `comb` computes binomial
coefficients exactly: every intermediate division is exact. -/
lemma foldl_mulDiv (N : ℕ) :
    ∀ m : ℕ, (List.range m).foldl (fun r i => r * (N - i) / (i + 1)) 1 = N.choose m := by
  intro m
  induction m with
  | zero => simp
  | succ m ih =>
    rw [List.range_succ, List.foldl_append, ih, List.foldl_cons, List.foldl_nil,
      ← Nat.choose_succ_right_eq, Nat.mul_div_cancel _ (Nat.succ_pos m)]

/-- Column sum of Pascal's triangle (hockey stick). -/
lemma sum_range_choose_col (m a : ℕ) :
    ∑ j ∈ Finset.range m, j.choose a = m.choose (a + 1) := by
  induction m with
  | zero => simp
  | succ m ih =>
    rw [Finset.sum_range_succ, ih, Nat.add_comm, ← Nat.choose_succ_succ]

/-- Vandermonde-style convolution over the upper index:
`∑ j ≤ n, C(j, a) * C(n - j, b) = C(n + 1, a + b + 1)`. -/
lemma sum_choose_mul_choose (a n b : ℕ) :
    ∑ j ∈ Finset.range (n + 1), j.choose a * (n - j).choose b =
      (n + 1).choose (a + b + 1) := by
  induction n generalizing b with
  | zero =>
    rw [Finset.sum_range_one]
    match a, b with
    | 0, 0 => rfl
    | 0, b + 1 => simp [(Nat.choose_eq_zero_of_lt (by omega : 1 < b + 1 + 1))]
    | a + 1, b => simp [(Nat.choose_eq_zero_of_lt (by omega : 1 < a + 1 + b + 1))]
  | succ n ih =>
    cases b with
    | zero =>
      simp only [Nat.choose_zero_right, Nat.mul_one, Nat.add_zero]
      exact sum_range_choose_col (n + 2) a
    | succ b =>
      rw [Finset.sum_range_succ, Nat.sub_self, Nat.choose_zero_succ, Nat.mul_zero, Nat.add_zero]
      have step : ∀ j ∈ Finset.range (n + 1), j.choose a * ((n + 1) - j).choose (b + 1) =
          j.choose a * (n - j).choose b + j.choose a * (n - j).choose (b + 1) := by
        intro j hj
        rw [Finset.mem_range] at hj
        rw [show n + 1 - j = (n - j) + 1 by omega]
        rw [Nat.choose_succ_succ, Nat.mul_add]
      rw [Finset.sum_congr rfl step, Finset.sum_add_distrib, ih b, ih (b + 1)]
      rw [show a + (b + 1) + 1 = (a + b + 1) + 1 by omega]
      exact (Nat.choose_succ_succ (n + 1) (a + b + 1)).symm

/-! ### C10: the fallback `comb` agrees with the reference binomial coefficient -/

/-- C10.  The fallback binomial-coefficient routine (used when
`math.comb` is unavailable) is extensionally equal to the reference
binomial coefficient: for every integer `n ≥ 0` and every integer `k`
it returns `C(n, k)` (i.e. `math.comb`'s value, `Nat.choose`) when
`0 ≤ k ≤ n` — equivalently `n! / (k! * (n-k)!)` — and `0` when `k < 0`
or `k > n`. -/
theorem c10_comb_matches_reference (n k : ℤ) (hn : 0 ≤ n) :
    comb n k = (if 0 ≤ k ∧ k ≤ n then ((n.toNat.choose k.toNat : ℕ) : ℤ) else 0) ∧
    (0 ≤ k → k ≤ n →
      comb n k =
        ((n.toNat.factorial / (k.toNat.factorial * (n.toNat - k.toNat).factorial) : ℕ) : ℤ)) := by
  have main : comb n k = (if 0 ≤ k ∧ k ≤ n then ((n.toNat.choose k.toNat : ℕ) : ℤ) else 0) := by
    unfold comb
    by_cases h1 : k < 0 ∨ n < k
    · rw [if_pos h1, if_neg (by omega)]
    · rw [if_neg h1]
      by_cases h2 : k = 0 ∨ k = n
      · rw [if_pos h2, if_pos (by omega)]
        rcases h2 with h2 | h2 <;> subst h2
        · simp
        · simp [Nat.choose_self]
      · rw [if_neg h2, if_pos (by omega), foldl_mulDiv]
        rcases le_total k (n - k) with h | h
        · rw [min_eq_left h]
        · rw [min_eq_right h, show (n - k).toNat = n.toNat - k.toNat by omega,
            Nat.choose_symm (by omega : k.toNat ≤ n.toNat)]
  refine ⟨main, fun h0 hkn => ?_⟩
  rw [main, if_pos ⟨h0, hkn⟩,
    Nat.choose_eq_factorial_div_factorial (by omega : k.toNat ≤ n.toNat)]

/-- Witness for C10 at `n = 10`, `k = 3`. -/
theorem c10_comb_matches_reference_witness : comb 10 3 = 120 := by
  have h := (c10_comb_matches_reference 10 3 (by norm_num)).1
  rw [h]
  decide

/-! ### C2: the Position Probability Model formula and its guard cases -/

/-- C2.  `calculate_exact_position_probability` returns exactly
`C(k-1, p) * C(maxRegular - k, 4-p) / C(maxRegular, 5)` on the valid
domain (`1 ≤ k ≤ maxRegular`, `0 ≤ p ≤ 4`,
`p+1 ≤ k ≤ maxRegular-(4-p)`), and `0` — without any error — whenever
`k < p+1`, or `k > maxRegular-(4-p)`, or `p` is outside `[0,4]`, or `k`
is outside `[1, maxRegular]`. -/
theorem c2_exact_position_probability_cases (k p M : ℤ) :
    (1 ≤ k → k ≤ M → 0 ≤ p → p ≤ 4 → p + 1 ≤ k → k ≤ M - (4 - p) →
      calculate_exact_position_probability k p M =
        (((k - 1).toNat.choose p.toNat * (M - k).toNat.choose (4 - p).toNat : ℕ) : ℚ) /
          ((M.toNat.choose 5 : ℕ) : ℚ)) ∧
    (k < p + 1 ∨ M - (4 - p) < k ∨ p < 0 ∨ 4 < p ∨ k < 1 ∨ M < k →
      calculate_exact_position_probability k p M = 0) := by
  constructor
  · intro hk1 hkM hp0 hp4 hpk hkhigh
    have hM5 : 5 ≤ M := by omega
    simp only [calculate_exact_position_probability]
    rw [if_neg (by omega), if_neg (by omega), if_neg (by omega),
      if_pos (by omega : p ≤ k - 1), if_pos (by omega : 4 - p ≤ M - k),
      if_neg (Nat.pos_iff_ne_zero.mp (Nat.choose_pos (by omega : 5 ≤ M.toNat)))]
  · intro h
    simp only [calculate_exact_position_probability]
    split_ifs <;> first | rfl | (exfalso; omega)

/-- Witness for C2: an in-range input (`k=3`, `p=2`, `maxRegular=70`)
and the spec's own boundary case `P(70, 0) = 0` for `maxRegular = 70`. -/
theorem c2_exact_position_probability_witness :
    calculate_exact_position_probability 3 2 70 =
      ((((3 : ℤ) - 1).toNat.choose (2 : ℤ).toNat *
          ((70 : ℤ) - 3).toNat.choose ((4 : ℤ) - 2).toNat : ℕ) : ℚ) /
        (((70 : ℤ).toNat.choose 5 : ℕ) : ℚ) ∧
    calculate_exact_position_probability 70 0 70 = 0 :=
  ⟨(c2_exact_position_probability_cases 3 2 70).1 (by norm_num) (by norm_num) (by norm_num)
      (by norm_num) (by norm_num) (by norm_num),
    (c2_exact_position_probability_cases 70 0 70).2 (by norm_num)⟩

/-! ### C3: for each rank, the exact probabilities sum to one -/

/-- Bridge between the guarded probability function and the pure
binomial formula, for `1 ≤ k ≤ M`: the guard zeros coincide with the
zeros of the binomial numerator. -/
lemma prob_cast_eq (k M : ℕ) (p : ℤ) (hk1 : 1 ≤ k) (hkM : k ≤ M)
    (hp0 : 0 ≤ p) (hp4 : p ≤ 4) (hM : 5 ≤ M) :
    calculate_exact_position_probability (k : ℤ) p (M : ℤ) =
      (((k - 1).choose p.toNat * (M - k).choose (4 - p.toNat) : ℕ) : ℚ) /
        ((M.choose 5 : ℕ) : ℚ) := by
  simp only [calculate_exact_position_probability]
  rw [if_neg (by omega), if_neg (by omega)]
  by_cases hlow : (k : ℤ) < p + 1
  · rw [if_pos (Or.inl hlow), Nat.choose_eq_zero_of_lt (by omega : k - 1 < p.toNat),
      Nat.zero_mul]
    simp
  · by_cases hhigh : (M : ℤ) - (4 - p) < (k : ℤ)
    · rw [if_pos (Or.inr hhigh),
        Nat.choose_eq_zero_of_lt (by omega : M - k < 4 - p.toNat), Nat.mul_zero]
      simp
    · rw [if_neg (by tauto), if_pos (by omega : p ≤ (k : ℤ) - 1),
        if_pos (by omega : 4 - p ≤ (M : ℤ) - (k : ℤ)),
        if_neg (Nat.pos_iff_ne_zero.mp (Nat.choose_pos (by omega : 5 ≤ ((M : ℤ)).toNat)))]
      rw [show ((k : ℤ) - 1).toNat = k - 1 by omega,
        show ((M : ℤ) - (k : ℤ)).toNat = M - k by omega,
        show ((4 : ℤ) - p).toNat = 4 - p.toNat by omega,
        show ((M : ℤ)).toNat = M by omega]

/-- C3.  For every fixed rank `p` in `0..4` and every `maxRegular ≥ 5`,
the exact position probabilities sum to exactly `1` over
`k = 1..maxRegular` (in exact arithmetic, hence within any floating
tolerance). -/
theorem c3_position_probabilities_sum_to_one (M : ℕ) (p : ℤ)
    (hM : 5 ≤ M) (hp0 : 0 ≤ p) (hp4 : p ≤ 4) :
    ∑ k ∈ Finset.Icc 1 M, calculate_exact_position_probability (k : ℤ) p (M : ℤ) = 1 := by
  obtain ⟨n, rfl⟩ : ∃ n, M = n + 1 := ⟨M - 1, by omega⟩
  have hT : 0 < (n + 1).choose 5 := Nat.choose_pos (by omega)
  have h1 : ∀ k ∈ Finset.Icc 1 (n + 1),
      calculate_exact_position_probability (k : ℤ) p ((n + 1 : ℕ) : ℤ) =
        (((k - 1).choose p.toNat * ((n + 1) - k).choose (4 - p.toNat) : ℕ) : ℚ) /
          (((n + 1).choose 5 : ℕ) : ℚ) := by
    intro k hk
    rw [Finset.mem_Icc] at hk
    exact prob_cast_eq k (n + 1) p hk.1 hk.2 hp0 hp4 hM
  rw [Finset.sum_congr rfl h1, ← Finset.sum_div,
    div_eq_one_iff_eq (by exact_mod_cast hT.ne')]
  rw [← Nat.cast_sum]
  norm_cast
  rw [← Nat.Ico_succ_right 1 (n + 1), Finset.sum_Ico_eq_sum_range]
  simp only [Nat.succ_sub_one]
  have h3 : ∀ j ∈ Finset.range (n + 1),
      (1 + j - 1).choose p.toNat * ((n + 1) - (1 + j)).choose (4 - p.toNat) =
        j.choose p.toNat * (n - j).choose (4 - p.toNat) := by
    intro j hj
    congr 2 <;> omega
  rw [Finset.sum_congr rfl h3, sum_choose_mul_choose,
    show p.toNat + (4 - p.toNat) + 1 = 5 by omega]

/-- Witness for C3 at `maxRegular = 69` (Powerball), rank `p = 0`. -/
theorem c3_position_probabilities_sum_to_one_witness :
    ∑ k ∈ Finset.Icc 1 69, calculate_exact_position_probability (k : ℤ) 0 ((69 : ℕ) : ℤ) = 1 :=
  c3_position_probabilities_sum_to_one 69 0 (by norm_num) (by norm_num) (by norm_num)

/-! ### Table lemmas for the aggregation invariants -/

lemma keysOf_updateKey (k : ℤ) (f : ℕ → ℕ) : ∀ t : Table, keysOf (updateKey k f t) = keysOf t
  | [] => rfl
  | (a, b) :: t => by
    rw [updateKey]
    by_cases h : a = k
    · rw [if_pos h]
      rfl
    · rw [if_neg h]
      show a :: keysOf (updateKey k f t) = a :: keysOf t
      rw [keysOf_updateKey k f t]

lemma sumVals_bump (k : ℤ) : ∀ t : Table, k ∈ keysOf t → sumVals (bump t k) = sumVals t + 1
  | [], h => by simp [keysOf] at h
  | (a, b) :: t, h => by
    rw [bump, updateKey]
    by_cases hak : a = k
    · rw [if_pos hak]
      show (b + 1) + sumVals t = (b + sumVals t) + 1
      omega
    · rw [if_neg hak]
      show b + sumVals (updateKey k (· + 1) t) = b + sumVals t + 1
      have hk : k ∈ keysOf t := by
        rcases (List.mem_cons).mp h with h' | h'
        · exact absurd h'.symm hak
        · exact h'
      have := sumVals_bump k t hk
      rw [bump] at this
      omega

lemma keysOf_bump (t : Table) (k : ℤ) : keysOf (bump t k) = keysOf t :=
  keysOf_updateKey k _ t

lemma keysOf_foldl_bump : ∀ (nums : List ℤ) (t : Table), keysOf (nums.foldl bump t) = keysOf t
  | [], _ => rfl
  | n :: nums, t => by
    rw [List.foldl_cons, keysOf_foldl_bump nums (bump t n), keysOf_bump]

lemma sumVals_foldl_bump : ∀ (nums : List ℤ) (t : Table), (∀ n ∈ nums, n ∈ keysOf t) →
    sumVals (nums.foldl bump t) = sumVals t + nums.length
  | [], _, _ => rfl
  | n :: nums, t, h => by
    rw [List.foldl_cons, sumVals_foldl_bump nums (bump t n) ?_,
      sumVals_bump n t (h n (List.mem_cons_self n nums))]
    · simp only [List.length_cons]
      omega
    · intro m hm
      rw [keysOf_bump]
      exact h m (List.mem_cons_of_mem n hm)

lemma keysOf_initTable (m : ℕ) :
    keysOf (initTable m) = (List.range m).map fun i : ℕ => (i : ℤ) + 1 := by
  rw [keysOf, initTable, List.map_map]
  rfl

lemma mem_keysOf_initTable (m : ℕ) (k : ℤ) :
    k ∈ keysOf (initTable m) ↔ 1 ≤ k ∧ k ≤ (m : ℤ) := by
  rw [keysOf_initTable, List.mem_map]
  constructor
  · rintro ⟨i, hi, rfl⟩
    rw [List.mem_range] at hi
    omega
  · rintro ⟨h1, h2⟩
    exact ⟨(k - 1).toNat, List.mem_range.mpr (by omega), by omega⟩

lemma sumVals_initTable (m : ℕ) : sumVals (initTable m) = 0 := by
  rw [sumVals, initTable, List.map_map]
  have h : ((fun x : ℤ × ℕ => x.2) ∘ fun i : ℕ => ((i : ℤ) + 1, 0)) = fun _ : ℕ => 0 := rfl
  rw [h, List.map_const']
  simp

lemma toInts_length : ∀ {xs : List PyVal} {ns : List ℤ}, toInts xs = some ns → ns.length = xs.length
  | [], ns, h => by
    rw [toInts, Option.some_inj] at h
    subst h
    rfl
  | .vint n :: xs, ns, h => by
    rw [toInts, Option.map_eq_some'] at h
    obtain ⟨ms, hms, rfl⟩ := h
    simp [toInts_length hms]
  | .vlist _ :: xs, ns, h => by simp [toInts] at h
  | .vnone :: xs, ns, h => by simp [toInts] at h
  | .vother :: xs, ns, h => by simp [toInts] at h

lemma getD_mem_of_lt {α : Type} : ∀ {l : List α} {i : ℕ}, i < l.length → ∀ d : α, l.getD i d ∈ l
  | [], i, h, _ => by simp at h
  | a :: t, 0, _, d => by simp
  | a :: t, i + 1, h, d => by
    simp only [List.getD_cons_succ, List.mem_cons]
    exact Or.inr (getD_mem_of_lt (by simpa using h) d)

lemma posTable_zero (s : AggState) : s.posTable 0 = s.position0 := rfl

lemma posTable_one (s : AggState) : s.posTable 1 = s.position1 := rfl

lemma posTable_two (s : AggState) : s.posTable 2 = s.position2 := rfl

lemma posTable_three (s : AggState) : s.posTable 3 = s.position3 := rfl

lemma posTable_four (s : AggState) : s.posTable 4 = s.position4 := rfl

lemma processDraw_inv (max_regular max_special : ℕ) (s : AggState) (d : RawDraw)
    (h : AggInv max_regular max_special s) :
    AggInv max_regular max_special (processDraw max_regular max_special s d) := by
  obtain ⟨hkf, hks, hkp, hsf, hss, hsp⟩ := h
  cases d with
  | notDict => exact ⟨hkf, hks, hkp, hsf, hss, hsp⟩
  | record numbers specialBall =>
    cases numbers with
    | vlist ns =>
      cases specialBall with
      | vint sb =>
        show AggInv max_regular max_special
          (if ns.length = 5 then _ else s)
        by_cases h5 : ns.length = 5
        · rw [if_pos h5]
          rcases hti : toInts ns with _ | nums
          · exact ⟨hkf, hks, hkp, hsf, hss, hsp⟩
          · show AggInv max_regular max_special
              (if ((nums.all fun n => decide (1 ≤ n) && decide (n ≤ (max_regular : ℤ))) &&
                  (decide (1 ≤ sb) && decide (sb ≤ (max_special : ℤ)))) = true then _ else s)
            by_cases hval :
              ((nums.all fun n => decide (1 ≤ n) && decide (n ≤ (max_regular : ℤ))) &&
                (decide (1 ≤ sb) && decide (sb ≤ (max_special : ℤ)))) = true
            · rw [if_pos hval]
              rw [Bool.and_eq_true] at hval
              have hlen : nums.length = 5 := by rw [toInts_length hti, h5]
              have hrange : ∀ n ∈ nums, 1 ≤ n ∧ n ≤ (max_regular : ℤ) := by
                intro n hn
                have := List.all_eq_true.mp hval.1 n hn
                simpa using this
              have hsb : 1 ≤ sb ∧ sb ≤ (max_special : ℤ) := by
                have := hval.2
                simp only [Bool.and_eq_true, decide_eq_true_eq] at this
                exact this
              have hmemf : ∀ n ∈ nums, n ∈ keysOf s.frequency := by
                intro n hn
                rw [hkf, mem_keysOf_initTable]
                exact hrange n hn
              have hmemp : ∀ (j : ℕ), j < 5 → ∀ t : Table,
                  keysOf t = keysOf (initTable max_regular) → nums.getD j 0 ∈ keysOf t := by
                intro j hj t ht
                rw [ht, mem_keysOf_initTable]
                exact hrange _ (getD_mem_of_lt (by omega) 0)
              refine ⟨?_, ?_, ?_, ?_, ?_, ?_⟩
              · rw [show keysOf _ = keysOf (nums.foldl bump s.frequency) from rfl,
                  keysOf_foldl_bump]
                exact hkf
              · rw [show keysOf _ = keysOf (bump s.specialFrequency sb) from rfl, keysOf_bump]
                exact hks
              · intro i
                fin_cases i
                · show keysOf (bump s.position0 (nums.getD 0 0)) = _
                  rw [keysOf_bump]; exact hkp 0
                · show keysOf (bump s.position1 (nums.getD 1 0)) = _
                  rw [keysOf_bump]; exact hkp 1
                · show keysOf (bump s.position2 (nums.getD 2 0)) = _
                  rw [keysOf_bump]; exact hkp 2
                · show keysOf (bump s.position3 (nums.getD 3 0)) = _
                  rw [keysOf_bump]; exact hkp 3
                · show keysOf (bump s.position4 (nums.getD 4 0)) = _
                  rw [keysOf_bump]; exact hkp 4
              · show sumVals (nums.foldl bump s.frequency) = (s.validDraws + 1) * 5
                rw [sumVals_foldl_bump nums s.frequency hmemf, hsf, hlen]
                ring
              · show sumVals (bump s.specialFrequency sb) = s.validDraws + 1
                rw [sumVals_bump sb s.specialFrequency
                  (by rw [hks, mem_keysOf_initTable]; exact hsb), hss]
              · intro i
                fin_cases i
                · show sumVals (bump s.position0 (nums.getD 0 0)) = s.validDraws + 1
                  rw [sumVals_bump _ _ (hmemp 0 (by omega) s.position0 (hkp 0))]
                  exact congrArg (· + 1) (hsp 0)
                · show sumVals (bump s.position1 (nums.getD 1 0)) = s.validDraws + 1
                  rw [sumVals_bump _ _ (hmemp 1 (by omega) s.position1 (hkp 1))]
                  exact congrArg (· + 1) (hsp 1)
                · show sumVals (bump s.position2 (nums.getD 2 0)) = s.validDraws + 1
                  rw [sumVals_bump _ _ (hmemp 2 (by omega) s.position2 (hkp 2))]
                  exact congrArg (· + 1) (hsp 2)
                · show sumVals (bump s.position3 (nums.getD 3 0)) = s.validDraws + 1
                  rw [sumVals_bump _ _ (hmemp 3 (by omega) s.position3 (hkp 3))]
                  exact congrArg (· + 1) (hsp 3)
                · show sumVals (bump s.position4 (nums.getD 4 0)) = s.validDraws + 1
                  rw [sumVals_bump _ _ (hmemp 4 (by omega) s.position4 (hkp 4))]
                  exact congrArg (· + 1) (hsp 4)
            · rw [if_neg hval]
              exact ⟨hkf, hks, hkp, hsf, hss, hsp⟩
        · rw [if_neg h5]
          exact ⟨hkf, hks, hkp, hsf, hss, hsp⟩
      | vlist _ => exact ⟨hkf, hks, hkp, hsf, hss, hsp⟩
      | vnone => exact ⟨hkf, hks, hkp, hsf, hss, hsp⟩
      | vother => exact ⟨hkf, hks, hkp, hsf, hss, hsp⟩
    | vint n =>
      cases specialBall <;> exact ⟨hkf, hks, hkp, hsf, hss, hsp⟩
    | vnone =>
      cases specialBall <;> exact ⟨hkf, hks, hkp, hsf, hss, hsp⟩
    | vother =>
      cases specialBall <;> exact ⟨hkf, hks, hkp, hsf, hss, hsp⟩

lemma aggInv_init (max_regular max_special : ℕ) :
    AggInv max_regular max_special (initAggState max_regular max_special) := by
  refine ⟨rfl, rfl, ?_, ?_, ?_, ?_⟩
  · intro i
    fin_cases i <;> rfl
  · rw [show (initAggState max_regular max_special).frequency = initTable max_regular from rfl,
      sumVals_initTable]
    rfl
  · rw [show (initAggState max_regular max_special).specialFrequency = initTable max_special
      from rfl, sumVals_initTable]
    rfl
  · intro i
    fin_cases i <;>
      simp [initAggState, AggState.posTable, sumVals_initTable]

lemma foldl_processDraw_inv (max_regular max_special : ℕ) :
    ∀ (ds : List RawDraw) (s : AggState), AggInv max_regular max_special s →
      AggInv max_regular max_special (ds.foldl (processDraw max_regular max_special) s)
  | [], s, h => h
  | d :: ds, s, h => by
    rw [List.foldl_cons]
    exact foldl_processDraw_inv max_regular max_special ds _
      (processDraw_inv max_regular max_special s d h)

lemma processDraw_of_invalid (max_regular max_special : ℕ) (s : AggState) (d : RawDraw)
    (h : validDraw max_regular max_special d = false) :
    processDraw max_regular max_special s d = s := by
  cases d with
  | notDict => rfl
  | record numbers specialBall =>
    cases numbers with
    | vlist ns =>
      cases specialBall with
      | vint sb =>
        show (if ns.length = 5 then _ else s) = s
        by_cases h5 : ns.length = 5
        · rw [if_pos h5]
          rcases hti : toInts ns with _ | nums
          · rfl
          · show (if ((nums.all fun n => decide (1 ≤ n) && decide (n ≤ (max_regular : ℤ))) &&
                (decide (1 ≤ sb) && decide (sb ≤ (max_special : ℤ)))) = true then _ else s) = s
            simp only [validDraw, hti, h5, decide_True, Bool.true_and] at h
            rw [if_neg (by rw [Bool.not_eq_true]; exact h)]
        · rw [if_neg h5]
      | vlist _ => rfl
      | vnone => rfl
      | vother => rfl
    | vint _ => cases specialBall <;> rfl
    | vnone => cases specialBall <;> rfl
    | vother => cases specialBall <;> rfl

/-- C6.  After aggregation over any input list (malformed and
out-of-range entries included), the overall table sums to
`validDrawCount * 5`, the special table sums to `validDrawCount`, every
per-position table sums to `validDrawCount`; and a draw that fails
validation leaves the whole counter state untouched (no partial
increment, no exception path). -/
theorem c6_table_sums_and_silent_rejection (max_regular max_special : ℕ)
    (draws : List RawDraw) :
    sumVals (aggregateDraws max_regular max_special draws).frequency =
      (aggregateDraws max_regular max_special draws).validDraws * 5 ∧
    sumVals (aggregateDraws max_regular max_special draws).specialFrequency =
      (aggregateDraws max_regular max_special draws).validDraws ∧
    (∀ i : Fin 5, sumVals ((aggregateDraws max_regular max_special draws).posTable i) =
      (aggregateDraws max_regular max_special draws).validDraws) ∧
    (∀ (s : AggState) (d : RawDraw), validDraw max_regular max_special d = false →
      processDraw max_regular max_special s d = s) := by
  have h := foldl_processDraw_inv max_regular max_special draws _
    (aggInv_init max_regular max_special)
  exact ⟨h.2.2.2.1, h.2.2.2.2.1, h.2.2.2.2.2,
    fun s d hd => processDraw_of_invalid max_regular max_special s d hd⟩

/-- Witness for C6: one valid draw counted, and one out-of-range draw
(special ball 99 > 25) rejected without touching the state. -/
theorem c6_table_sums_and_silent_rejection_witness :
    sumVals (aggregateDraws 70 25 [mkDraw [5, 1, 2, 3, 4] 1]).frequency =
      (aggregateDraws 70 25 [mkDraw [5, 1, 2, 3, 4] 1]).validDraws * 5 ∧
    processDraw 70 25 (initAggState 70 25) (mkDraw [5, 1, 2, 3, 4] 99) = initAggState 70 25 :=
  ⟨(c6_table_sums_and_silent_rejection 70 25 [mkDraw [5, 1, 2, 3, 4] 1]).1,
    (c6_table_sums_and_silent_rejection 70 25 [mkDraw [5, 1, 2, 3, 4] 1]).2.2.2
      (initAggState 70 25) (mkDraw [5, 1, 2, 3, 4] 99) (by decide)⟩

/-! ### C1: the Aggregator fills position tables by draw order, not rank -/

/-- C1 evaluation at the failing input: the single valid draw
`{numbers: [5, 1, 2, 3, 4], specialBall: 1}` is counted with its first
input-order number `5` in `position0` (and the lowest number `1` is
not), and its last input-order number `4` in `position4` (and the
highest number `5` is not) — the Aggregator performs no sort, contrary
to the rank semantics that the per-position probability model and its
docstrings assume. -/
theorem c1_position_tables_use_draw_order :
    validDraw 70 25 (mkDraw [5, 1, 2, 3, 4] 1) = true ∧
    (aggregateDraws 70 25 [mkDraw [5, 1, 2, 3, 4] 1]).position0.lookup 5 = some 1 ∧
    (aggregateDraws 70 25 [mkDraw [5, 1, 2, 3, 4] 1]).position0.lookup 1 = some 0 ∧
    (aggregateDraws 70 25 [mkDraw [5, 1, 2, 3, 4] 1]).position4.lookup 4 = some 1 ∧
    (aggregateDraws 70 25 [mkDraw [5, 1, 2, 3, 4] 1]).position4.lookup 5 = some 0 := by
  decide

/-! ### C9: the per-position repeat-allowed strategy -/

/-- Head of the stable descending sort of a non-empty table is a number
of maximal count. -/
lemma topNumber_spec (t : Table) (h : t ≠ []) :
    ∃ c : ℕ, (topNumber t, c) ∈ t ∧ ∀ kv ∈ t, kv.2 ≤ c := by
  have hne : sortDescByCount t ≠ [] := by
    intro hnil
    have := List.length_insertionSort freqGE t
    rw [show List.insertionSort freqGE t = sortDescByCount t from rfl, hnil] at this
    exact h (List.length_eq_zero.mp this.symm)
  obtain ⟨hd, tl, heq⟩ := List.exists_cons_of_ne_nil hne
  have htop : topNumber t = hd.1 := by
    rw [topNumber, heq]
    rfl
  have hsorted : List.Sorted freqGE (sortDescByCount t) := List.sorted_insertionSort freqGE t
  rw [heq] at hsorted
  refine ⟨hd.2, ?_, ?_⟩
  · rw [htop]
    have : hd ∈ sortDescByCount t := by rw [heq]; exact List.mem_cons_self hd tl
    rw [sortDescByCount, List.mem_insertionSort] at this
    exact this
  · intro kv hkv
    have : kv ∈ sortDescByCount t := by
      rw [sortDescByCount, List.mem_insertionSort]
      exact hkv
    rw [heq, List.mem_cons] at this
    rcases this with rfl | hmem
    · exact le_refl _
    · exact List.rel_of_sorted_cons hsorted kv hmem

lemma opt_position_repeat_getD (position_frequency : Fin 5 → Table)
    (special_frequency : Table) (i : Fin 5) :
    (optimized_by_position_frequency_repeat position_frequency special_frequency).getD
      (i : ℕ) 0 = topNumber (position_frequency i) := by
  fin_cases i <;> rfl

/-- C9 (amended).  Strategy (3) returns, at index `i`, a number whose
count is maximal in position table `i` (the most frequent number at
that position, smallest such number on ties), in position order; the
claimed ascending ordering of the output does not hold in general (see
the counterexample). -/
theorem c9_position_strategy_picks_maximal (position_frequency : Fin 5 → Table)
    (special_frequency : Table) (i : Fin 5) (h : position_frequency i ≠ []) :
    ∃ c : ℕ,
      ((optimized_by_position_frequency_repeat position_frequency special_frequency).getD
        (i : ℕ) 0, c) ∈ position_frequency i ∧
      ∀ kv ∈ position_frequency i, kv.2 ≤ c := by
  obtain ⟨c, hmem, hmax⟩ := topNumber_spec (position_frequency i) h
  refine ⟨c, ?_, hmax⟩
  rw [opt_position_repeat_getD]
  exact hmem

/-- Witness for C9's amended statement on a one-entry position table. -/
theorem c9_position_strategy_picks_maximal_witness :
    ∃ c : ℕ,
      ((optimized_by_position_frequency_repeat (fun _ : Fin 5 => [((3 : ℤ), 7)])
          [((1 : ℤ), 2)]).getD ((0 : Fin 5) : ℕ) 0, c) ∈
        (fun _ : Fin 5 => [((3 : ℤ), 7)]) (0 : Fin 5) ∧
      ∀ kv ∈ (fun _ : Fin 5 => [((3 : ℤ), 7)]) (0 : Fin 5), kv.2 ≤ c :=
  c9_position_strategy_picks_maximal (fun _ => [(3, 7)]) [(1, 2)] 0 (by decide)

/-- C9 counterexample: on the aggregator's tables for `c9draws` (a
non-empty list of valid draws, all ascending), strategy (3) returns
`[5, 2, 8, 9, 10, 1]` — position 0 yields `5` (count 3) while position
1 yields `2` (tie of count-1 entries at 6, 7, 11 beaten by the count-2
entry 2), so `optimizedByPositionFrequencyRepeat[0] ≤
optimizedByPositionFrequencyRepeat[1]` fails. -/
theorem c9_counterexample_not_ascending :
    (aggregateDraws 69 26 c9draws).validDraws = 5 ∧
    optimized_by_position_frequency_repeat (aggregateDraws 69 26 c9draws).posTable
      (aggregateDraws 69 26 c9draws).specialFrequency = [5, 2, 8, 9, 10, 1] ∧
    ¬ ((optimized_by_position_frequency_repeat (aggregateDraws 69 26 c9draws).posTable
          (aggregateDraws 69 26 c9draws).specialFrequency).getD 0 0 ≤
        (optimized_by_position_frequency_repeat (aggregateDraws 69 26 c9draws).posTable
          (aggregateDraws 69 26 c9draws).specialFrequency).getD 1 0) := by
  decide

/-! ### C8: the general-frequency no-repeat strategy -/

lemma exists_mem_of_findSome {α β : Type} {f : α → Option β} :
    ∀ {l : List α} {b : β}, l.findSome? f = some b → ∃ a ∈ l, f a = some b
  | [], b, h => by simp [List.findSome?] at h
  | a :: l, b, h => by
    rw [List.findSome?_cons] at h
    cases hfa : f a with
    | some c =>
      rw [hfa] at h
      exact ⟨a, List.mem_cons_self a l, by rw [hfa]; exact h⟩
    | none =>
      rw [hfa] at h
      obtain ⟨x, hx, hfx⟩ := exists_mem_of_findSome h
      exact ⟨x, List.mem_cons_of_mem a hx, hfx⟩

lemma mem_idxTuples {I J : ℕ} {t : ℕ × ℕ × ℕ × ℕ × ℕ} (h : t ∈ idxTuples I J) :
    t.1 < I ∧ t.2.1 < J ∧ t.2.2.1 < J ∧ t.2.2.2.1 < J ∧ t.2.2.2.2 < J := by
  simp only [idxTuples, List.mem_flatMap, List.mem_map, List.mem_range] at h
  obtain ⟨i, hi, j, hj, k, hk, l, hl, m, hm, rfl⟩ := h
  exact ⟨hi, hj, hk, hl, hm⟩

lemma getD_fst_mem_take : ∀ (l : List (ℤ × ℕ)) (i n : ℕ), i < n → i < l.length →
    (l.getD i (0, 0)).1 ∈ (l.take n).map (·.1)
  | [], _, _, _, hil => absurd hil (by simp)
  | a :: t, 0, 0, hin, _ => absurd hin (by omega)
  | a :: t, 0, n + 1, _, _ => by simp
  | a :: t, i + 1, 0, hin, _ => absurd hin (by omega)
  | a :: t, i + 1, n + 1, hin, hil => by
    simp only [List.getD_cons_succ, List.take_succ_cons, List.map_cons, List.mem_cons]
    exact Or.inr (getD_fst_mem_take t i n (by omega) (by simpa using hil))

lemma nodup_of_dedup_length {l : List ℤ} (h : l.dedup.length = l.length) : l.Nodup := by
  have heq := (List.dedup_sublist l).eq_of_length h
  rw [← heq]
  exact List.nodup_dedup l

lemma tryCandidate_spec {sorted_regular sorted_special : List (ℤ × ℕ)}
    {existing : List (List ℤ)} {t : ℕ × ℕ × ℕ × ℕ × ℕ} {r : List ℤ}
    (h : tryCandidate sorted_regular sorted_special existing t = some r)
    (hb20 : t.1 < 20 ∧ t.2.1 < 20 ∧ t.2.2.1 < 20 ∧ t.2.2.2.1 < 20 ∧ t.2.2.2.2 < 20)
    (hbl : t.1 < sorted_regular.length ∧ t.2.1 < sorted_regular.length ∧
      t.2.2.1 < sorted_regular.length ∧ t.2.2.2.1 < sorted_regular.length ∧
      t.2.2.2.2 < sorted_regular.length) :
    ∃ cs sp, r = cs ++ [sp] ∧ cs.Sorted (· ≤ ·) ∧ cs.Nodup ∧ cs.length = 5 ∧
      (∀ x ∈ cs, x ∈ (sorted_regular.take 20).map (·.1)) ∧
      sp ∈ (sorted_special.take 10).map (·.1) ∧ cs ++ [sp] ∉ existing := by
  simp only [tryCandidate] at h
  by_cases hded :
    ([(sorted_regular.getD t.1 (0, 0)).1, (sorted_regular.getD t.2.1 (0, 0)).1,
      (sorted_regular.getD t.2.2.1 (0, 0)).1, (sorted_regular.getD t.2.2.2.1 (0, 0)).1,
      (sorted_regular.getD t.2.2.2.2 (0, 0)).1].dedup).length = 5
  · rw [if_pos hded] at h
    obtain ⟨sp_item, hsp_mem, hsp_eq⟩ := exists_mem_of_findSome h
    by_cases hex :
      sortAsc [(sorted_regular.getD t.1 (0, 0)).1, (sorted_regular.getD t.2.1 (0, 0)).1,
        (sorted_regular.getD t.2.2.1 (0, 0)).1, (sorted_regular.getD t.2.2.2.1 (0, 0)).1,
        (sorted_regular.getD t.2.2.2.2 (0, 0)).1] ++ [sp_item.1] ∈ existing
    · rw [if_pos hex] at hsp_eq
      exact absurd hsp_eq (by simp)
    · rw [if_neg hex] at hsp_eq
      rw [Option.some_inj] at hsp_eq
      have hperm := List.perm_insertionSort (α := ℤ) (· ≤ ·)
        [(sorted_regular.getD t.1 (0, 0)).1, (sorted_regular.getD t.2.1 (0, 0)).1,
         (sorted_regular.getD t.2.2.1 (0, 0)).1, (sorted_regular.getD t.2.2.2.1 (0, 0)).1,
         (sorted_regular.getD t.2.2.2.2 (0, 0)).1]
      refine ⟨sortAsc [(sorted_regular.getD t.1 (0, 0)).1, (sorted_regular.getD t.2.1 (0, 0)).1,
        (sorted_regular.getD t.2.2.1 (0, 0)).1, (sorted_regular.getD t.2.2.2.1 (0, 0)).1,
        (sorted_regular.getD t.2.2.2.2 (0, 0)).1], sp_item.1, hsp_eq.symm,
        List.sorted_insertionSort (· ≤ ·) _, ?_, ?_, ?_, ?_, hex⟩
      · exact hperm.nodup_iff.mpr (nodup_of_dedup_length hded)
      · rw [sortAsc, hperm.length_eq]
        rfl
      · intro x hx
        have hx5 := hperm.mem_iff.mp hx
        simp only [List.mem_cons, List.not_mem_nil, or_false] at hx5
        rcases hx5 with rfl | rfl | rfl | rfl | rfl
        · exact getD_fst_mem_take _ _ _ hb20.1 hbl.1
        · exact getD_fst_mem_take _ _ _ hb20.2.1 hbl.2.1
        · exact getD_fst_mem_take _ _ _ hb20.2.2.1 hbl.2.2.1
        · exact getD_fst_mem_take _ _ _ hb20.2.2.2.1 hbl.2.2.2.1
        · exact getD_fst_mem_take _ _ _ hb20.2.2.2.2 hbl.2.2.2.2
      · exact List.mem_map.mpr ⟨sp_item, hsp_mem, rfl⟩
  · rw [if_neg hded] at h
    exact absurd h (by simp)

/-- C8.  The no-repeat general-frequency search either returns a
6-tuple made of 5 pairwise-distinct regular numbers sorted ascending,
all taken from the top 20 entries of the frequency-descending sort,
plus one of the top 10 special numbers, whose combination is absent
from the existing-combination set — or (on exhaustion of its 1000
capped attempts over the descending-frequency-first index tuples) it
returns exactly the repeat-allowed strategy's result.  In particular it
always returns a combination. -/
theorem c8_no_repeat_strategy_sound (frequency special_frequency : Table)
    (existing_combinations : List (List ℤ)) :
    (∃ cs sp, optimized_by_general_frequency_no_repeat frequency special_frequency
        existing_combinations = cs ++ [sp] ∧
      cs.Sorted (· ≤ ·) ∧ cs.Nodup ∧ cs.length = 5 ∧
      (∀ x ∈ cs, x ∈ ((sortDescByCount frequency).take 20).map (·.1)) ∧
      sp ∈ ((sortDescByCount special_frequency).take 10).map (·.1) ∧
      cs ++ [sp] ∉ existing_combinations) ∨
    optimized_by_general_frequency_no_repeat frequency special_frequency
        existing_combinations =
      optimized_by_general_frequency_repeat frequency special_frequency := by
  cases hfind : ((idxTuples (min 20 (sortDescByCount frequency).length)
      (min 10 (sortDescByCount frequency).length)).take 1000).findSome?
      (tryCandidate (sortDescByCount frequency) (sortDescByCount special_frequency)
        existing_combinations) with
  | none =>
    right
    unfold optimized_by_general_frequency_no_repeat
    rw [hfind]
  | some r =>
    left
    obtain ⟨a, ha, hfa⟩ := exists_mem_of_findSome hfind
    have hmem := List.take_subset 1000 _ ha
    have hb := mem_idxTuples hmem
    obtain ⟨cs, sp, hr, hsort, hnd, hlen, hmemcs, hsp, hnotin⟩ :=
      tryCandidate_spec hfa
        ⟨by omega, by omega, by omega, by omega, by omega⟩
        ⟨by omega, by omega, by omega, by omega, by omega⟩
    refine ⟨cs, sp, ?_, hsort, hnd, hlen, hmemcs, hsp, hnotin⟩
    unfold optimized_by_general_frequency_no_repeat
    rw [hfind]
    exact hr

/-! ### C7: the zero-valid-draws record -/

lemma calc_std_residuals_zero (frequency_dict : Table) (total_draws max_number actual : ℕ)
    (htd : total_draws = 0) :
    ∀ p ∈ calculate_standardized_residuals frequency_dict total_draws max_number actual,
      p.2.expected = 0 ∧ p.2.residual = 0 ∧ ¬ p.2.significant ∧ p.2.percent = 0 := by
  subst htd
  intro p hp
  unfold calculate_standardized_residuals at hp
  rw [if_pos rfl] at hp
  obtain ⟨kv, _, rfl⟩ := List.mem_map.mp hp
  refine ⟨rfl, rfl, not_false, ?_⟩
  show pct kv.2 0 = 0
  rw [pct, if_neg (by omega)]

lemma calc_pos_residuals_zero (frequency_at_position : Fin 5 → Option Table)
    (total_draws max_number : ℕ) (htd : total_draws = 0) (i : Fin 5) :
    ∀ p ∈ calculate_exact_position_specific_residuals frequency_at_position
        total_draws max_number i,
      p.2.expected = 0 ∧ p.2.residual = 0 ∧ ¬ p.2.significant ∧ p.2.percent = 0 := by
  subst htd
  intro p hp
  unfold calculate_exact_position_specific_residuals at hp
  rw [if_pos rfl] at hp
  rcases hfi : frequency_at_position i with _ | tbl
  · rw [hfi] at hp
    simp at hp
  · rw [hfi] at hp
    dsimp only at hp
    obtain ⟨kv, _, rfl⟩ := List.mem_map.mp hp
    exact ⟨rfl, rfl, not_false, rfl⟩

/-- C7 refuted (code bug).  The one-record input list
`[{"numbers": [1, null, 2, 3, 4], "specialBall": 7}]` has zero valid
draws — the Draw Validator rejects the record because `None` is not an
int — so the claim requires the default record to be returned without
raising.  Instead `calculate_stats_for_type` raises a `TypeError` out
of its unguarded `get_existing_combinations(draws)` call (line 658):
line 177 runs `tuple(sorted(numbers))` after checking only that
`numbers` is a 5-element list and `specialBall` an int, and
`sorted([1, None, 2, 3, 4])` compares `None` with an int. -/
theorem c7_zero_valid_draws_raises :
    validDraw 69 26 c7badDraw = false ∧
    (aggregateDraws 69 26 [c7badDraw]).validDraws = 0 ∧
    get_existing_combinations [c7badDraw] = .error () ∧
    calculate_stats_for_type [c7badDraw] "powerball" 69 26 = .error () := by
  refine ⟨rfl, rfl, rfl, ?_⟩
  unfold calculate_stats_for_type
  rfl

/-! ### C4 and C5: standardized residual formulas and significance flags -/

/-- Branch-resolved form of `calculate_standardized_residuals` when no
degenerate guard fires. -/
lemma calc_std_residuals_main (frequency_dict : Table) (total_draws max_number actual_draws : ℕ)
    (h0 : ¬ total_draws = 0)
    (hexp : ¬ ((total_draws : ℚ) / (max_number : ℚ) = 0))
    (hact : 0 < actual_draws) (hmx : 0 < max_number)
    (hprob : 0 < (total_draws : ℚ) / (actual_draws : ℚ) / (max_number : ℚ))
    (hstd : ¬ (Real.sqrt ((actual_draws : ℝ) *
        (((total_draws : ℚ) / (actual_draws : ℚ) / (max_number : ℚ) : ℚ) : ℝ) *
        (1 - (((total_draws : ℚ) / (actual_draws : ℚ) / (max_number : ℚ) : ℚ) : ℝ))) = 0)) :
    calculate_standardized_residuals frequency_dict total_draws max_number actual_draws =
      frequency_dict.map fun kv =>
        (kv.1,
          { observed := kv.2,
            expected := (((total_draws : ℚ) / (max_number : ℚ) : ℚ) : ℝ),
            residual := ((kv.2 : ℝ) - (((total_draws : ℚ) / (max_number : ℚ) : ℚ) : ℝ)) /
              Real.sqrt ((actual_draws : ℝ) *
                (((total_draws : ℚ) / (actual_draws : ℚ) / (max_number : ℚ) : ℚ) : ℝ) *
                (1 - (((total_draws : ℚ) / (actual_draws : ℚ) / (max_number : ℚ) : ℚ) : ℝ))),
            significant := |((kv.2 : ℝ) - (((total_draws : ℚ) / (max_number : ℚ) : ℚ) : ℝ)) /
              Real.sqrt ((actual_draws : ℝ) *
                (((total_draws : ℚ) / (actual_draws : ℚ) / (max_number : ℚ) : ℚ) : ℝ) *
                (1 - (((total_draws : ℚ) / (actual_draws : ℚ) /
                  (max_number : ℚ) : ℚ) : ℝ)))| > 2.0,
            verySignificant := none,
            percent := pct kv.2 total_draws }) := by
  unfold calculate_standardized_residuals
  dsimp only
  rw [if_neg h0, if_neg hexp, if_pos hact, if_pos hmx, if_pos (And.intro hact hprob),
    if_neg hstd]

/-- C4 (amended).  With `totalTrials = validDrawCount * 5` and
`actual_draws = validDrawCount` as passed by `calculate_stats_for_type`,
the overall view computes `expected = validDrawCount * 5 / maxRegular`
(the flat `1/maxRegular` per slot), but its binomial standard deviation
uses `n = validDrawCount` draws with per-draw probability
`5/maxRegular`:
`residual = (observed - expected) / sqrt(validDrawCount * (5/maxRegular) * (1 - 5/maxRegular))`.
The special view uses `n = validDrawCount` and `p = 1/maxSpecial`
exactly as claimed. -/
theorem c4_residual_model (freq spec : Table) (valid mr ms : ℕ)
    (hv : 0 < valid) (hmr : 5 < mr) (hms : 1 < ms) :
    (∀ p ∈ calculate_standardized_residuals freq (valid * 5) mr valid,
      p.2.expected = ((valid : ℝ) * 5) / (mr : ℝ) ∧
      p.2.residual = ((p.2.observed : ℝ) - ((valid : ℝ) * 5) / (mr : ℝ)) /
        Real.sqrt ((valid : ℝ) * ((5 : ℝ) / (mr : ℝ)) * (1 - (5 : ℝ) / (mr : ℝ)))) ∧
    (∀ p ∈ calculate_standardized_residuals spec valid ms valid,
      p.2.expected = (valid : ℝ) / (ms : ℝ) ∧
      p.2.residual = ((p.2.observed : ℝ) - (valid : ℝ) / (ms : ℝ)) /
        Real.sqrt ((valid : ℝ) * ((1 : ℝ) / (ms : ℝ)) * (1 - (1 : ℝ) / (ms : ℝ)))) := by
  have hv0 : ((valid : ℕ) : ℚ) ≠ 0 := Nat.cast_ne_zero.mpr (by omega)
  have hmr0 : ((mr : ℕ) : ℚ) ≠ 0 := Nat.cast_ne_zero.mpr (by omega)
  have hms0 : ((ms : ℕ) : ℚ) ≠ 0 := Nat.cast_ne_zero.mpr (by omega)
  have hmrpos : (0 : ℚ) < ((mr : ℕ) : ℚ) := by exact_mod_cast (by omega : 0 < mr)
  have hmspos : (0 : ℚ) < ((ms : ℕ) : ℚ) := by exact_mod_cast (by omega : 0 < ms)
  constructor
  · have hqp : ((valid * 5 : ℕ) : ℚ) / ((valid : ℕ) : ℚ) / ((mr : ℕ) : ℚ) =
        5 / ((mr : ℕ) : ℚ) := by
      push_cast
      field_simp
    have hprobp : 0 < ((valid * 5 : ℕ) : ℚ) / ((valid : ℕ) : ℚ) / ((mr : ℕ) : ℚ) := by
      rw [hqp]
      exact div_pos (by norm_num) hmrpos
    have hprob_lt1 : ((valid * 5 : ℕ) : ℚ) / ((valid : ℕ) : ℚ) / ((mr : ℕ) : ℚ) < 1 := by
      rw [hqp, div_lt_one hmrpos]
      exact_mod_cast hmr
    have hstdpos : 0 < Real.sqrt ((valid : ℝ) *
        ((((valid * 5 : ℕ) : ℚ) / ((valid : ℕ) : ℚ) / ((mr : ℕ) : ℚ) : ℚ) : ℝ) *
        (1 - (((( valid * 5 : ℕ) : ℚ) / ((valid : ℕ) : ℚ) / ((mr : ℕ) : ℚ) : ℚ) : ℝ))) := by
      apply Real.sqrt_pos.mpr
      apply mul_pos (mul_pos _ _) _
      · exact_mod_cast hv
      · exact_mod_cast hprobp
      · rw [sub_pos]
        exact_mod_cast hprob_lt1
    rw [calc_std_residuals_main freq (valid * 5) mr valid (by omega)
      (div_ne_zero (Nat.cast_ne_zero.mpr (by omega)) hmr0) hv (by omega) hprobp
      (ne_of_gt hstdpos)]
    intro p hp
    obtain ⟨kv, _, rfl⟩ := List.mem_map.mp hp
    constructor
    · show ((((valid * 5 : ℕ) : ℚ) / ((mr : ℕ) : ℚ) : ℚ) : ℝ) = ((valid : ℝ) * 5) / (mr : ℝ)
      push_cast
      ring
    · show ((kv.2 : ℝ) - ((((valid * 5 : ℕ) : ℚ) / ((mr : ℕ) : ℚ) : ℚ) : ℝ)) / _ = _
      rw [hqp]
      push_cast
      ring_nf
  · have hqp : ((valid : ℕ) : ℚ) / ((valid : ℕ) : ℚ) / ((ms : ℕ) : ℚ) =
        1 / ((ms : ℕ) : ℚ) := by
      rw [div_self hv0]
    have hprobp : 0 < ((valid : ℕ) : ℚ) / ((valid : ℕ) : ℚ) / ((ms : ℕ) : ℚ) := by
      rw [hqp]
      exact div_pos (by norm_num) hmspos
    have hprob_lt1 : ((valid : ℕ) : ℚ) / ((valid : ℕ) : ℚ) / ((ms : ℕ) : ℚ) < 1 := by
      rw [hqp, div_lt_one hmspos]
      exact_mod_cast hms
    have hstdpos : 0 < Real.sqrt ((valid : ℝ) *
        ((((valid : ℕ) : ℚ) / ((valid : ℕ) : ℚ) / ((ms : ℕ) : ℚ) : ℚ) : ℝ) *
        (1 - ((((valid : ℕ) : ℚ) / ((valid : ℕ) : ℚ) / ((ms : ℕ) : ℚ) : ℚ) : ℝ))) := by
      apply Real.sqrt_pos.mpr
      apply mul_pos (mul_pos _ _) _
      · exact_mod_cast hv
      · exact_mod_cast hprobp
      · rw [sub_pos]
        exact_mod_cast hprob_lt1
    rw [calc_std_residuals_main spec valid ms valid (by omega)
      (div_ne_zero (Nat.cast_ne_zero.mpr (by omega)) hms0) hv (by omega) hprobp
      (ne_of_gt hstdpos)]
    intro p hp
    obtain ⟨kv, _, rfl⟩ := List.mem_map.mp hp
    constructor
    · show ((((valid : ℕ) : ℚ) / ((ms : ℕ) : ℚ) : ℚ) : ℝ) = (valid : ℝ) / (ms : ℝ)
      push_cast
      ring
    · show ((kv.2 : ℝ) - ((((valid : ℕ) : ℚ) / ((ms : ℕ) : ℚ) : ℚ) : ℝ)) / _ = _
      rw [hqp]
      push_cast
      ring_nf

/-- Witness for C4 at `validDrawCount = 1`, `maxRegular = 70`,
`maxSpecial = 25`, on the overall entry for the number 1. -/
theorem c4_residual_model_witness :
    c4entry.2.expected = (((1 : ℕ) : ℝ) * 5) / ((70 : ℕ) : ℝ) ∧
    c4entry.2.residual = ((c4entry.2.observed : ℝ) - (((1 : ℕ) : ℝ) * 5) / ((70 : ℕ) : ℝ)) /
      Real.sqrt (((1 : ℕ) : ℝ) * ((5 : ℝ) / ((70 : ℕ) : ℝ)) *
        (1 - (5 : ℝ) / ((70 : ℕ) : ℝ))) := by
  apply (c4_residual_model [((1 : ℤ), 1)] [((1 : ℤ), 1)] 1 70 25 (by norm_num) (by norm_num)
    (by norm_num)).1 c4entry
  unfold c4entry
  rw [calc_std_residuals_main [((1 : ℤ), 1)] (1 * 5) 70 1 (by norm_num) (by norm_num)
    (by norm_num) (by norm_num) (by norm_num)
    (Real.sqrt_ne_zero'.mpr (by push_cast; norm_num))]
  exact getD_mem_of_lt (by simp) (0, default)

/-- C4 counterexample: with one valid draw and `maxRegular = 70`, the
overall residual of an observed-once number is `√13 ≈ 3.606`
(`n = validDrawCount = 1`, `p = 5/70`), while the claimed formula
`sqrt(validDrawCount*5 * (1/maxRegular) * (1 - 1/maxRegular))` would
give `(13/14)/sqrt(69/980) ≈ 3.500`. -/
theorem c4_counterexample_overall_stddev :
    c4entry.2.observed = 1 ∧
    c4entry.2.residual = Real.sqrt 13 ∧
    c4entry.2.residual ≠
      ((c4entry.2.observed : ℝ) - (1 * 5 : ℝ) / 70) /
        Real.sqrt ((1 * 5 : ℝ) * ((1 : ℝ) / 70) * (1 - (1 : ℝ) / 70)) := by
  have hmain := calc_std_residuals_main [((1 : ℤ), 1)] (1 * 5) 70 1 (by norm_num) (by norm_num)
    (by norm_num) (by norm_num) (by norm_num)
    (Real.sqrt_ne_zero'.mpr (by push_cast; norm_num))
  have hobs : c4entry.2.observed = 1 := by
    unfold c4entry
    rw [hmain]
    rfl
  have hres : c4entry.2.residual = Real.sqrt 13 := by
    unfold c4entry
    rw [hmain]
    show (((1 : ℕ) : ℝ) - ((((1 * 5 : ℕ) : ℚ) / ((70 : ℕ) : ℚ) : ℚ) : ℝ)) /
        Real.sqrt (((1 : ℕ) : ℝ) *
          ((((1 * 5 : ℕ) : ℚ) / ((1 : ℕ) : ℚ) / ((70 : ℕ) : ℚ) : ℚ) : ℝ) *
          (1 - ((((1 * 5 : ℕ) : ℚ) / ((1 : ℕ) : ℚ) / ((70 : ℕ) : ℚ) : ℚ) : ℝ))) =
      Real.sqrt 13
    push_cast
    norm_num
    rw [show (196 : ℝ) = 14 ^ 2 by norm_num, Real.sqrt_sq (by norm_num : (0 : ℝ) ≤ 14),
      div_div_div_comm, div_self (by norm_num : (14 : ℝ) ≠ 0), div_one, Real.div_sqrt]
  refine ⟨hobs, hres, ?_⟩
  rw [hres, hobs]
  intro heq
  have hpos : (0 : ℝ) < Real.sqrt ((1 * 5 : ℝ) * ((1 : ℝ) / 70) * (1 - (1 : ℝ) / 70)) :=
    Real.sqrt_pos.mpr (by norm_num)
  rw [eq_div_iff (ne_of_gt hpos)] at heq
  have h2 := congrArg (fun x : ℝ => x ^ 2) heq
  simp only [mul_pow] at h2
  rw [Real.sq_sqrt (by norm_num : (0 : ℝ) ≤ 13),
    Real.sq_sqrt (by norm_num : (0 : ℝ) ≤ (1 * 5 : ℝ) * ((1 : ℝ) / 70) * (1 - (1 : ℝ) / 70))]
    at h2
  norm_num at h2

/-- Branch-resolved form of the per-position residual calculator for a
positive draw count and a present position key. -/
lemma calc_pos_residuals_pos_branch (frequency_at_position : Fin 5 → Option Table)
    (total_draws max_number : ℕ) (i : Fin 5) (tbl : Table)
    (h0 : ¬ total_draws = 0) (hfi : frequency_at_position i = some tbl) :
    calculate_exact_position_specific_residuals frequency_at_position total_draws
        max_number i =
      tbl.map fun kv =>
        let probability : ℚ :=
          calculate_exact_position_probability kv.1 ((i : ℕ) : ℤ) (max_number : ℤ)
        let expected : ℝ := (probability : ℝ) * (total_draws : ℝ)
        let std_dev : ℝ :=
          if 0 < probability ∧ probability < 1 then
            Real.sqrt ((total_draws : ℝ) * (probability : ℝ) * (1 - (probability : ℝ)))
          else 0
        let residual : ℝ := if 0 < std_dev then ((kv.2 : ℝ) - expected) / std_dev else 0
        (kv.1, { observed := kv.2, expected := expected, residual := residual,
                 significant := |residual| > 1.96,
                 verySignificant := some (|residual| > 2.58),
                 percent := pct kv.2 total_draws }) := by
  unfold calculate_exact_position_specific_residuals
  rw [if_neg h0]
  dsimp only
  rw [hfi]

/-- C5 (amended).  The overall/special Residual Calculator flags
`significant` exactly when `|residual| > 2.0` and emits no
`verySignificant` key; the per-position calculator (for a positive draw
count) flags `significant` exactly when `|residual| > 1.96` and
`verySignificant` exactly when `|residual| > 2.58` (the source's 99%
threshold is `2.58`, not `2.576`). -/
theorem c5_significance_flags :
    (∀ (frequency_dict : Table) (total_draws max_number actual_draws : ℕ),
      ∀ p ∈ calculate_standardized_residuals frequency_dict total_draws max_number
          actual_draws,
        (p.2.significant ↔ |p.2.residual| > 2.0) ∧ p.2.verySignificant = none) ∧
    (∀ (frequency_at_position : Fin 5 → Option Table) (total_draws max_number : ℕ),
      0 < total_draws → ∀ i : Fin 5,
      ∀ p ∈ calculate_exact_position_specific_residuals frequency_at_position total_draws
          max_number i,
        (p.2.significant ↔ |p.2.residual| > 1.96) ∧
        p.2.verySignificant = some (|p.2.residual| > 2.58)) := by
  constructor
  · intro frequency_dict total_draws max_number actual_draws p hp
    unfold calculate_standardized_residuals at hp
    dsimp only at hp
    by_cases h0 : total_draws = 0
    · rw [if_pos h0] at hp
      obtain ⟨kv, _, rfl⟩ := List.mem_map.mp hp
      exact ⟨iff_of_false not_false (by norm_num), rfl⟩
    · rw [if_neg h0] at hp
      by_cases hexp : (total_draws : ℚ) / (max_number : ℚ) = 0
      · rw [if_pos hexp] at hp
        obtain ⟨kv, _, rfl⟩ := List.mem_map.mp hp
        exact ⟨iff_of_false not_false (by norm_num), rfl⟩
      · rw [if_neg hexp] at hp
        generalize hP : (if 0 < max_number then
            (if 0 < actual_draws then (total_draws : ℚ) / (actual_draws : ℚ) else 0) /
              (max_number : ℚ)
          else 0) = P at hp
        generalize hS : (if 0 < actual_draws ∧ 0 < P then
            Real.sqrt ((actual_draws : ℝ) * (P : ℝ) * (1 - (P : ℝ)))
          else 0) = S at hp
        by_cases hS0 : S = 0
        · rw [if_pos hS0] at hp
          obtain ⟨kv, _, rfl⟩ := List.mem_map.mp hp
          exact ⟨iff_of_false not_false (by norm_num), rfl⟩
        · rw [if_neg hS0] at hp
          obtain ⟨kv, _, rfl⟩ := List.mem_map.mp hp
          exact ⟨Iff.rfl, rfl⟩
  · intro frequency_at_position total_draws max_number ht i p hp
    unfold calculate_exact_position_specific_residuals at hp
    rw [if_neg (by omega)] at hp
    dsimp only at hp
    rcases hfi : frequency_at_position i with _ | tbl
    · rw [hfi] at hp
      simp at hp
    · rw [hfi] at hp
      dsimp only at hp
      obtain ⟨kv, _, rfl⟩ := List.mem_map.mp hp
      exact ⟨Iff.rfl, rfl⟩

/-- Witness for C5's per-position part at a concrete entry. -/
theorem c5_significance_flags_witness :
    (c5wEntry.2.significant ↔ |c5wEntry.2.residual| > 1.96) ∧
    c5wEntry.2.verySignificant = some (|c5wEntry.2.residual| > 2.58) := by
  apply c5_significance_flags.2 (fun _ => some [((1 : ℤ), 0)]) 1 6 (by norm_num) 0 c5wEntry
  unfold c5wEntry
  rw [calc_pos_residuals_pos_branch (fun _ => some [((1 : ℤ), 0)]) 1 6 0 [((1 : ℤ), 0)]
    (by norm_num) rfl]
  exact getD_mem_of_lt (by simp) (0, default)

/-- C5 counterexample: a per-position entry whose residual is exactly
`2.58`: the claim's threshold (`2.576`) declares it very significant,
but the code's threshold (`2.58`, strict) does not. -/
theorem c5_counterexample_very_significant_threshold :
    c5entry.2.residual = 2.58 ∧
    (2.576 : ℝ) < |c5entry.2.residual| ∧
    c5entry.2.verySignificant = some ((2.58 : ℝ) < |c5entry.2.residual|) ∧
    ¬ ((2.58 : ℝ) < |c5entry.2.residual|) := by
  have hmain := calc_pos_residuals_pos_branch
    (fun i => if i = 0 then some [((2 : ℤ), 75645)] else none) 450000 6 0 [((2 : ℤ), 75645)]
    (by norm_num) rfl
  have hq : calculate_exact_position_probability 2 (((0 : Fin 5) : ℕ) : ℤ) ((6 : ℕ) : ℤ) =
      1 / 6 := by
    rw [show (((0 : Fin 5) : ℕ) : ℤ) = 0 from rfl, show ((6 : ℕ) : ℤ) = 6 from rfl]
    norm_num [calculate_exact_position_probability, Nat.choose]
  have hres : c5entry.2.residual = 2.58 := by
    unfold c5entry
    rw [hmain, List.map_cons, List.map_nil, List.getD_cons_zero]
    dsimp only
    rw [hq]
    rw [if_pos (by norm_num : (0 : ℚ) < 1 / 6 ∧ (1 / 6 : ℚ) < 1)]
    have hsq : Real.sqrt (((450000 : ℕ) : ℝ) * ((1 / 6 : ℚ) : ℝ) * (1 - ((1 / 6 : ℚ) : ℝ))) =
        250 := by
      push_cast
      rw [show (450000 * (1 / 6) * (1 - 1 / 6) : ℝ) = 250 ^ 2 by norm_num]
      exact Real.sqrt_sq (by norm_num)
    rw [hsq, if_pos (by norm_num : (0 : ℝ) < 250)]
    push_cast
    norm_num
  have hvs : c5entry.2.verySignificant = some ((2.58 : ℝ) < |c5entry.2.residual|) := rfl
  refine ⟨hres, ?_, hvs, ?_⟩
  · rw [hres, abs_of_nonneg (by norm_num : (0 : ℝ) ≤ 2.58)]
    norm_num
  · rw [hres, abs_of_nonneg (by norm_num : (0 : ℝ) ≤ 2.58)]
    norm_num
